import Mathlib

/-
  Verification development for the RAG_Extraction repository
  (FastAPI RAG ingestion/retrieval service).

  Shallow embedding of the relevant program parts:
  - app/utils/text_utils.py       (chunk_text)
  - app/core/crawler.py           (WebCrawler.crawl)
  - app/services/vector_store.py  (VectorStore.add_documents / search)
  - app/core/generator.py         (confidence heuristic, empty-retrieval path)
  - app/core/retriever.py         (Retriever.retrieve_chunks)
  - app/background/tasks.py       (_run_ingestion_async)
  - app/services/redis_job_service.py (scan_stuck_jobs)
  - app/api/routers/ingest.py + app/models/schemas.py + app/dependencies.py

  Python strings are modeled as List Char, floats as rationals,
  exceptions as Except / explicit outcome values, and I/O state
  (Redis job store, FAISS files on disk) as explicit state records.
-/

set_option maxHeartbeats 1000000

/-! ### Python primitives on character lists -/

/-- Python regex class \s on ASCII input: space, tab, newline,
vertical tab, form feed, carriage return. -/
def pyIsSpace (c : Char) : Bool :=
  c = ' ' ∨ c = '\t' ∨ c = '\n' ∨ c = '\x0b' ∨ c = '\x0c' ∨ c = '\r'

/-- Python str.strip with no arguments: drop whitespace at both ends. -/
def pyStrip (l : List Char) : List Char :=
  ((l.dropWhile pyIsSpace).reverse.dropWhile pyIsSpace).reverse

/-- Index of the last occurrence of character c in l, if any
(Python str.rfind restricted to a prefix is obtained by applying
this to List.take). -/
def pyRFindChar (c : Char) : List Char → Option Nat
  | [] => none
  | a :: rest =>
    match pyRFindChar c rest with
    | some i => some (i + 1)
    | none => if a = c then some 0 else none

/-- Python " ".join on a list of strings. -/
def joinSp : List (List Char) → List Char
  | [] => []
  | s :: rest =>
    match rest with
    | [] => s
    | _ :: _ => s ++ ' ' :: joinSp rest

/-! ### app/utils/text_utils.py : chunk_text

Source (lines 35-91).  Sentences are obtained with
re.split(r'(?<=[.!?])\s+', text): the text is cut at each maximal
whitespace run that is preceded by one of . ! ?, the run itself being
consumed as separator. -/

/-- True when the (reversed) current segment ends in a sentence
terminator, i.e. the lookbehind (?<=[.!?]) matches. -/
def sentTerm (curRev : List Char) : Bool :=
  match curRev with
  | p :: _ => p = '.' ∨ p = '!' ∨ p = '?'
  | [] => false

/-- Worker for the regex split; curRev holds the current segment in
reverse order, and inSep records that the scanner is inside the
whitespace run of a separator match (the run is consumed greedily,
exactly as the regex engine consumes the maximal \s+ match). -/
def splitSentencesAux (curRev : List Char) (inSep : Bool) :
    List Char → List (List Char)
  | [] => [curRev.reverse]
  | c :: rest =>
    if inSep then
      if pyIsSpace c then splitSentencesAux curRev true rest
      else splitSentencesAux [c] false rest
    else if sentTerm curRev ∧ pyIsSpace c then
      curRev.reverse :: splitSentencesAux [] true rest
    else
      splitSentencesAux (c :: curRev) false rest

/-- re.split(r'(?<=[.!?])\s+', text). -/
def splitSentences (text : List Char) : List (List Char) :=
  splitSentencesAux [] false text

/-- Loop state of chunk_text: accumulated chunks, current chunk
(list of sentences), current accumulated length counter. -/
structure ChunkState where
  chunks : List (List Char)
  cur : List (List Char)
  curLen : Nat
deriving Repr, DecidableEq

/-- The overlap loop of chunk_text (lines 65-73): walk the current
chunk from its last sentence backwards, taking sentences while the
accumulated length (sentence length + 1 each) stays within
chunk_overlap; stop at the first sentence that does not fit.
Input is the current chunk reversed; returns the overlap sentences in
original order together with their accumulated length. -/
def overlapAux (chunkOverlap : Nat) : List (List Char) → List (List Char) → Nat →
    List (List Char) × Nat
  | [], acc, accLen => (acc, accLen)
  | s :: rest, acc, accLen =>
    if accLen + s.length + 1 ≤ chunkOverlap then
      overlapAux chunkOverlap rest (s :: acc) (accLen + s.length + 1)
    else
      (acc, accLen)

/-- The force-split while loop of chunk_text (lines 79-86): while the
current length exceeds chunk_size and the current chunk is a single
sentence, cut the sentence at the last space before chunk_size
(hard cut at chunk_size when there is no space or the space lies
before 80 percent of chunk_size; the Python comparison
split_point < chunk_size * 0.8 is modeled as 5 * split_point <
4 * chunk_size).  Fueled because the Python loop does not terminate
for chunk_size = 0. -/
def forceSplitLoop (chunkSize : Nat) :
    Nat → List (List Char) → List (List Char) → Nat → List Char → ChunkState
  | 0, chunks, cur, curLen, _ => ⟨chunks, cur, curLen⟩
  | fuel + 1, chunks, cur, curLen, sentence =>
    if curLen > chunkSize ∧ cur.length = 1 then
      let splitPoint :=
        match pyRFindChar ' ' (sentence.take chunkSize) with
        | none => chunkSize
        | some i => if 5 * i < 4 * chunkSize then chunkSize else i
      let piece := pyStrip (sentence.take splitPoint)
      let rest := pyStrip (sentence.drop splitPoint)
      forceSplitLoop chunkSize fuel (chunks ++ [piece]) [rest] rest.length rest
    else
      ⟨chunks, cur, curLen⟩

/-- One iteration of the for-loop of chunk_text (lines 51-86). -/
def processSentence (chunkSize chunkOverlap : Nat) (st : ChunkState)
    (sentence : List Char) : ChunkState :=
  if st.curLen + sentence.length + st.cur.length ≤ chunkSize then
    ⟨st.chunks, st.cur ++ [sentence], st.curLen + sentence.length + 1⟩
  else
    let chunks1 :=
      match st.cur with
      | [] => st.chunks
      | _ :: _ => st.chunks ++ [pyStrip (joinSp st.cur)]
    let ov := overlapAux chunkOverlap st.cur.reverse [] 0
    let cur1 := ov.1 ++ [sentence]
    let len1 := (cur1.map (fun s => s.length + 1)).sum
    forceSplitLoop chunkSize (sentence.length + 1) chunks1 cur1 len1 sentence

/-- chunk_text (text_utils.py lines 35-91): split into sentences,
greedily pack them into chunks of bounded accumulated length with
trailing-sentence overlap, force-splitting a single over-long
sentence; finally discard empty chunks. -/
def chunk_text (text : List Char) (chunkSize chunkOverlap : Nat) :
    List (List Char) :=
  if text = [] then []
  else
    let sentences := splitSentences text
    let st := sentences.foldl (processSentence chunkSize chunkOverlap) ⟨[], [], 0⟩
    let chunks :=
      match st.cur with
      | [] => st.chunks
      | _ :: _ => st.chunks ++ [pyStrip (joinSp st.cur)]
    chunks.filter (fun c => ¬ c = [])

/-- Loop invariant of chunk_text: emitted chunks are within
chunkSize + chunkOverlap, the joined current chunk is no longer than
the length counter and within the bound, and the counter is zero while
the current chunk is empty. -/
def ChunkInv (chunkSize chunkOverlap : Nat) (st : ChunkState) : Prop :=
  (∀ c ∈ st.chunks, c.length ≤ chunkSize + chunkOverlap)
  ∧ (joinSp st.cur).length ≤ st.curLen
  ∧ (joinSp st.cur).length ≤ chunkSize + chunkOverlap
  ∧ (st.cur = [] → st.curLen = 0)

/-! ### Data model (app/models/document.py, app/models/job.py)

DocumentChunk and IngestionJob.  Free-form metadata dictionaries and
datetime subtleties are elided: timestamps are modeled as integers,
floats as rationals. -/

/-- app/models/document.py : DocumentChunk. -/
structure Chunk where
  chunk_id : String
  document_url : String
  document_title : Option String
  text_content : List Char
  start_index : Nat
  end_index : Nat
  embedding : Option (List ℚ)
deriving DecidableEq, Repr

/-- A crawled page (app/models/document.py : Document, restricted to
the fields the crawler writes; text_content stays empty there). -/
structure CrawledDoc where
  url : String
  html : String
deriving DecidableEq, Repr

/-- app/models/job.py : IngestionJob (config dict elided). -/
structure JobR where
  job_id : String
  status : String
  started_at : Int
  completed_at : Option Int
  pages_fetched : Nat
  pages_indexed : Nat
  total_chunks_indexed : Nat
  errors : List String
  user_notes : Option String
  last_heartbeat : Int
deriving DecidableEq, Repr

/-! ### app/core/crawler.py : WebCrawler.crawl (lines 81-148)

The per-URL fetch (with its HTTP retries) is abstracted as an oracle
fetch : url -> Option html, exactly the interface _fetch_url exposes to
the loop: some html on success, none after retries are exhausted.
Link extraction and allowlist filtering (_get_all_links, which needs a
real HTML parser) is the oracle getLinks : url -> html -> links.
The politeness delay does not affect the returned value. -/

/-- The link-enqueueing for-loop (crawler.py lines 137-140): append a
discovered link at depth+1 unless it is already visited or already
queued (the membership check sees links appended earlier in the same
loop, which the foldl reproduces). -/
def enqueueLinks (visited : List String) (frontier : List (String × Nat))
    (depth : Nat) (links : List String) : List (String × Nat) :=
  links.foldl
    (fun f l => if l ∉ visited ∧ l ∉ f.map Prod.fst then f ++ [(l, depth)] else f)
    frontier

/-- The while loop of WebCrawler.crawl.  The loop runs while the
frontier is non-empty and fewer than maxPages documents are collected;
it pops the frontier head (FIFO), skips visited URLs and URLs beyond
maxDepth, marks the URL visited, fetches it, and on success records
the document and enqueues discovered links when depth allows. -/
def crawlLoop (fetch : String → Option String) (getLinks : String → String → List String)
    (maxPages maxDepth : Nat) (frontier : List (String × Nat)) (visited : List String)
    (crawled : List CrawledDoc) : List CrawledDoc :=
  match frontier with
  | [] => crawled
  | (u, d) :: rest =>
    if crawled.length < maxPages then
      if u ∈ visited then
        crawlLoop fetch getLinks maxPages maxDepth rest visited crawled
      else if maxPages ≤ crawled.length then
        crawled
      else if maxDepth < d then
        crawlLoop fetch getLinks maxPages maxDepth rest visited crawled
      else
        let visited1 := u :: visited
        match fetch u with
        | some html =>
          let crawled1 := crawled ++ [⟨u, html⟩]
          let frontier1 :=
            if d < maxDepth then enqueueLinks visited1 rest (d + 1) (getLinks u html)
            else rest
          crawlLoop fetch getLinks maxPages maxDepth frontier1 visited1 crawled1
        | none =>
          crawlLoop fetch getLinks maxPages maxDepth rest visited1 crawled
    else crawled
termination_by (maxPages - crawled.length, frontier.length)
decreasing_by
  · apply Prod.Lex.right
    simp only [List.length_cons]
    omega
  · apply Prod.Lex.right
    simp only [List.length_cons]
    omega
  · apply Prod.Lex.left
    simp only [List.length_append, List.length_cons]
    omega
  · apply Prod.Lex.right
    simp only [List.length_cons]
    omega

/-- WebCrawler.crawl: seeds enter the FIFO frontier at depth 0 with
empty visited set and no collected documents. -/
def webCrawl (fetch : String → Option String) (getLinks : String → String → List String)
    (seedUrls : List String) (maxPages maxDepth : Nat) : List CrawledDoc :=
  crawlLoop fetch getLinks maxPages maxDepth (seedUrls.map (fun u => (u, 0))) [] []

/-! ### app/services/vector_store.py : VectorStore

Per-job FAISS flat L2 index with chunk metadata and ordinal-to-chunk_id
map.  Memory and disk are association lists from job_id to the
(index, metadata, id map) triple; a disk entry stands for the three
files of a job all present and loadable (the load path discards
incomplete triples, so only complete ones are observable).  float32
vectors are modeled as rational vectors and FAISS squared-L2 top-k
search as exact sorted selection. -/

/-- The FAISS index plus the two side files the store keeps per job. -/
structure VSJobData where
  d : Nat
  vectors : List (List ℚ)
  metadata : List (String × Chunk)
  idMap : List String
deriving DecidableEq, Repr

/-- VectorStore class state: resident dictionaries and the storage
directory. -/
structure VSState where
  mem : List (String × VSJobData)
  disk : List (String × VSJobData)
deriving DecidableEq, Repr

/-- Python dict lookup on an association list. -/
def lookupA {α : Type} (m : List (String × α)) (k : String) : Option α :=
  (m.find? (fun p => p.1 == k)).map (fun p => p.2)

/-- Python dict assignment on an association list. -/
def upsertA {α : Type} : List (String × α) → String → α → List (String × α)
  | [], k, v => [(k, v)]
  | (k1, v1) :: rest, k, v =>
    if k1 == k then (k, v) :: rest else (k1, v1) :: upsertA rest k v

/-- _load_indexes_from_disk: every complete persisted triple is loaded
into the resident dictionaries (overwriting resident entries for jobs
that are on disk, keeping the others). -/
def reloadVS (s : VSState) : VSState :=
  ⟨s.disk.foldl (fun m p => upsertA m p.1 p.2) s.mem, s.disk⟩

/-- Squared Euclidean distance, the IndexFlatL2 metric. -/
def sqDist (a b : List ℚ) : ℚ :=
  ((a.zip b).map (fun p => (p.1 - p.2) * (p.1 - p.2))).sum

/-- Candidate order used by the top-k selection: by distance, ties by
ordinal.  (FAISS does not specify tie order; the code re-sorts by
distance afterwards, so the properties proved do not depend on it.) -/
def faissLe (a b : ℚ × Nat) : Prop :=
  a.1 < b.1 ∨ (a.1 = b.1 ∧ a.2 ≤ b.2)

instance : DecidableRel faissLe :=
  fun a b => inferInstanceAs (Decidable (a.1 < b.1 ∨ (a.1 = b.1 ∧ a.2 ≤ b.2)))

/-- index.search(query, k): the k nearest stored vectors with their
ordinals, ascending distance.  When fewer than k vectors are stored,
FAISS pads with ordinal -1 and the caller skips those slots; taking
min k ntotal real hits models search plus that skip. -/
def faissSearch (vectors : List (List ℚ)) (q : List ℚ) (k : Nat) : List (ℚ × Nat) :=
  ((vectors.enum.map (fun p => (sqDist q p.2, p.1))).insertionSort faissLe).take k

/-- Order used by results.sort(key=lambda x: x[0]). -/
def distLe (a b : ℚ × Chunk) : Prop := a.1 ≤ b.1

instance : DecidableRel distLe :=
  fun a b => inferInstanceAs (Decidable (a.1 ≤ b.1))

instance : IsTotal (ℚ × Chunk) distLe := ⟨fun a b => le_total a.1 b.1⟩

instance : IsTrans (ℚ × Chunk) distLe := ⟨fun _ _ _ h1 h2 => le_trans h1 h2⟩

/-- Body of VectorStore.search once the job index is resident
(vector_store.py lines 178-212): dimension check, FAISS top-k, map
each ordinal through the id map (skipping out-of-range ordinals) and
the metadata dictionary (skipping missing chunk ids), then sort by
distance. -/
def searchResident (jd : VSJobData) (q : List ℚ) (k : Nat) :
    Except String (List (ℚ × Chunk)) :=
  if q.length ≠ jd.d then
    .error "Query embedding dimension mismatch."
  else
    let results := (faissSearch jd.vectors q k).filterMap
      (fun p =>
        if h : p.2 < jd.idMap.length then
          match lookupA jd.metadata (jd.idMap.get ⟨p.2, h⟩) with
          | some chunk => some (p.1, chunk)
          | none => none
        else none)
    .ok (results.insertionSort distLe)

/-- VectorStore.search (lines 165-212): if the job is not resident,
force a reload of all persisted indexes from disk, and only if it is
still absent return the empty result. -/
def searchVS (s : VSState) (jobId : String) (q : List ℚ) (k : Nat) :
    VSState × Except String (List (ℚ × Chunk)) :=
  match lookupA s.mem jobId with
  | some jd => (s, searchResident jd q k)
  | none =>
    let s1 := reloadVS s
    match lookupA s1.mem jobId with
    | some jd => (s1, searchResident jd q k)
    | none => (s1, .ok [])

/-- The embedding validation of add_documents (lines 121-123):
every chunk must carry a non-empty embedding of the given dimension
(Python truthiness of c.embedding). -/
def embValid (dim : Nat) (chunks : List Chunk) : Bool :=
  chunks.all (fun c =>
    match c.embedding with
    | some l => ¬ l.isEmpty ∧ l.length = dim
    | none => false)

/-- The insertion loop of add_documents (lines 141-157): vectors are
appended to the index, chunk metadata and the id map are extended in
lockstep.  Batching by FAISS_BATCH_SIZE only groups the appends and
does not change the resulting state or count. -/
def vsInsert (jd : VSJobData) (chunks : List Chunk) : VSJobData :=
  { jd with
    vectors := jd.vectors ++ chunks.map (fun c => c.embedding.getD []),
    metadata := chunks.foldl (fun m c => upsertA m c.chunk_id c) jd.metadata,
    idMap := jd.idMap ++ chunks.map (fun c => c.chunk_id) }

/-- VectorStore.add_documents (lines 112-163).  Note that when the job
is not resident a fresh empty index is created: unlike search, this
path performs no reload from disk.  _save_index then persists the
whole triple (modeled as always succeeding). -/
def addDocumentsVS (s : VSState) (jobId : String) (chunks : List Chunk) :
    VSState × Except String Nat :=
  match chunks with
  | [] => (s, .ok 0)
  | c0 :: _ =>
    match c0.embedding with
    | none => (s, .error "TypeError: object of type NoneType has no len()")
    | some e0 =>
      let dim := e0.length
      if ¬ embValid dim chunks then
        (s, .error "All chunks must have embeddings of the same dimension.")
      else
        match lookupA s.mem jobId with
        | none =>
          let jd1 := vsInsert ⟨dim, [], [], []⟩ chunks
          (⟨upsertA s.mem jobId jd1, upsertA s.disk jobId jd1⟩, .ok chunks.length)
        | some jd =>
          if jd.d ≠ dim then
            (s, .error "Embedding dimension mismatch")
          else
            let jd1 := vsInsert jd chunks
            (⟨upsertA s.mem jobId jd1, upsertA s.disk jobId jd1⟩, .ok chunks.length)

/-- Number of vectors FAISS holds for a job (index.ntotal), zero when
the job has no resident index. -/
def ntotalVS (s : VSState) (jobId : String) : Nat :=
  match lookupA s.mem jobId with
  | some jd => jd.vectors.length
  | none => 0

/-- Chunk-provenance invariant: every chunk recorded in the metadata
dictionary of job j, resident or persisted, is one of the chunks in
added. -/
def MetaInvVS (s : VSState) (j : String) (added : List Chunk) : Prop :=
  (∀ jd, (j, jd) ∈ s.mem → ∀ cid c, (cid, c) ∈ jd.metadata → c ∈ added) ∧
  (∀ jd, (j, jd) ∈ s.disk → ∀ cid c, (cid, c) ∈ jd.metadata → c ∈ added)

/-! ### app/core/generator.py

BaseGenerator helpers and the two concrete adapters.  The external
chat-completion calls are oracles; float display formatting
({score:.2f}) is an oracle fmtScore since binary float printing has no
exact rational counterpart.  Neither oracle affects the properties
proved. -/

/-- app/models/schemas.py : Citation. -/
structure CitationR where
  url : String
  title : Option String
  chunk_id : Option String
  quote : Option (List Char)
  score : Option ℚ
deriving DecidableEq, Repr

/-- The dict returned by generate_answer. -/
structure GenAnswer where
  answer : List Char
  confidence : String
  citations : List CitationR
  grounding_notes : List Char
deriving DecidableEq, Repr

/-- BaseGenerator._assess_confidence (generator.py lines 54-70):
average of the scores of the retrieved chunks with ad hoc thresholds
(the float thresholds 0.8 and 0.6 written as exact rationals). -/
def assessConfidence (retrieved : List (ℚ × Chunk)) : String :=
  match retrieved with
  | [] => "low"
  | _ =>
    let topScores := retrieved.map (fun p => p.1)
    let avgTopScore := topScores.sum / (topScores.length : ℚ)
    if avgTopScore > 4/5 ∧ retrieved.length ≥ 3 then "high"
    else if avgTopScore > 3/5 ∧ retrieved.length ≥ 1 then "medium"
    else "low"

/-- Rank of the three confidence levels, low < medium < high. -/
def confRank (c : String) : Nat :=
  if c = "low" then 0 else if c = "medium" then 1 else 2

/-- Python str.split() (split on whitespace runs, no empty words);
worker keeps the current word reversed. -/
def pySplitWSAux (curRev : List Char) : List Char → List (List Char)
  | [] => match curRev with
    | [] => []
    | _ :: _ => [curRev.reverse]
  | c :: rest =>
    if pyIsSpace c then
      match curRev with
      | [] => pySplitWSAux [] rest
      | _ :: _ => curRev.reverse :: pySplitWSAux [] rest
    else
      pySplitWSAux (c :: curRev) rest

/-- Python str.split(). -/
def pySplitWS (l : List Char) : List (List Char) := pySplitWSAux [] l

/-- Python substring containment: pat in text. -/
def containsSub (pat text : List Char) : Bool :=
  text.tails.any (fun t => pat.isPrefixOf t)

/-- BaseGenerator._generate_citations (lines 32-52): cite a chunk when
its URL is not yet cited and one of the first ten words of its text
occurs in the answer; the quote is the first 100 characters. -/
def genCitsAux (answer : List Char) : List (ℚ × Chunk) → List String → List CitationR
  | [], _ => []
  | (score, chunk) :: rest, citedUrls =>
    if chunk.document_url ∉ citedUrls ∧
        ((pySplitWS chunk.text_content).take 10).any (fun w => containsSub w answer) then
      { url := chunk.document_url
        title := chunk.document_title
        chunk_id := some chunk.chunk_id
        quote := some (if chunk.text_content.length > 100
          then chunk.text_content.take 100 ++ ('.' :: '.' :: '.' :: [])
          else chunk.text_content)
        score := some score } :: genCitsAux answer rest (chunk.document_url :: citedUrls)
    else
      genCitsAux answer rest citedUrls

/-- BaseGenerator._generate_citations. -/
def generateCitations (answer : List Char) (retrieved : List (ℚ × Chunk)) :
    List CitationR :=
  genCitsAux answer retrieved []

/-- BaseGenerator._format_context (lines 20-30), with the score
formatter as oracle. -/
def formatContextAux (fmtScore : ℚ → List Char) :
    Nat → List (ℚ × Chunk) → List Char
  | _, [] => []
  | i, (score, chunk) :: rest =>
    "--- Source ".toList ++ (toString (i + 1)).toList ++ " (Score: ".toList ++
      fmtScore score ++ ", URL: ".toList ++ chunk.document_url.toList ++
      ") ---".toList ++ ('\n' :: chunk.text_content) ++ ('\n' :: '\n' :: []) ++
      formatContextAux fmtScore (i + 1) rest

/-- BaseGenerator._format_context. -/
def formatContext (fmtScore : ℚ → List Char) (retrieved : List (ℚ × Chunk)) :
    List Char :=
  pyStrip (formatContextAux fmtScore 0 retrieved)

/-- The fixed response both adapters return when no chunks were
retrieved (generator.py lines 109-115 and 194-200). -/
def cannotAnswerResponse : GenAnswer :=
  { answer := "I cannot answer this question as no relevant information was found.".toList
    confidence := "low"
    citations := []
    grounding_notes := "No relevant documents were retrieved.".toList }

/-- The system prompt of OpenAIGenerator.generate_answer. -/
def openaiSystemPrompt : List Char :=
  ("You are a helpful and honest assistant. Your task is to answer the " ++
   "user question STRICTLY based on the provided context.").toList

/-- OpenAIGenerator.generate_answer (lines 103-164).  The oracle llm
receives system and user prompt and yields the completion text or an
exception; the Bool in the result records whether the external call
was made. -/
def openaiGenerateAnswer (llm : List Char → List Char → Except String (List Char))
    (fmtScore : ℚ → List Char) (question : List Char)
    (retrieved : List (ℚ × Chunk)) : GenAnswer × Bool :=
  match retrieved with
  | [] => (cannotAnswerResponse, false)
  | _ =>
    let context := formatContext fmtScore retrieved
    let userPrompt := "Context:\n".toList ++ context ++ "\n\nQuestion: ".toList ++
      question ++ "\n\nAnswer:".toList
    match llm openaiSystemPrompt userPrompt with
    | .ok text =>
      let answerText := pyStrip text
      ({ answer := answerText
         confidence := assessConfidence retrieved
         citations := generateCitations answerText retrieved
         grounding_notes := "Answer generated from retrieved documents using OpenAI.".toList },
       true)
    | .error e =>
      ({ answer := "An error occurred while generating the answer.".toList
         confidence := "low"
         citations := []
         grounding_notes := ("Error: " ++ e).toList }, true)

/-- GeminiGenerator.generate_answer (lines 188-245); the oracle
receives the composed message sequence. -/
def geminiGenerateAnswer (llm : List (List Char) → Except String (List Char))
    (fmtScore : ℚ → List Char) (question : List Char)
    (retrieved : List (ℚ × Chunk)) : GenAnswer × Bool :=
  match retrieved with
  | [] => (cannotAnswerResponse, false)
  | _ =>
    let context := formatContext fmtScore retrieved
    let messages : List (List Char) :=
      [openaiSystemPrompt,
       "Understood. I will provide answers strictly based on the context and cite my sources.".toList,
       "Context:\n".toList ++ context ++ "\n\nQuestion: ".toList ++ question ++
         "\n\nAnswer:".toList]
    match llm messages with
    | .ok text =>
      let answerText := pyStrip text
      ({ answer := answerText
         confidence := assessConfidence retrieved
         citations := generateCitations answerText retrieved
         grounding_notes := "Answer generated from retrieved documents using Gemini.".toList },
       true)
    | .error e =>
      ({ answer := "An error occurred while generating the answer.".toList
         confidence := "low"
         citations := []
         grounding_notes := ("Error: " ++ e).toList }, true)

/-! ### app/core/retriever.py : Retriever.retrieve_chunks (lines 17-42)

The embedder is external: its outcome (vector or exception) is the
oracle argument.  The vector-store search is the embedded searchVS. -/

/-- Retriever.retrieve_chunks: embed the query, return [] when the
embedding is empty, search the store, and catch every exception from
either step by returning []. -/
def retrieveChunks (s : VSState) (embedQueryRes : Except String (List ℚ))
    (jobId : String) (k : Nat) : VSState × Except String (List (ℚ × Chunk)) :=
  match embedQueryRes with
  | .error _ => (s, .ok [])
  | .ok q =>
    if q.isEmpty then (s, .ok [])
    else
      match searchVS s jobId q k with
      | (s1, .ok results) => (s1, .ok results)
      | (s1, .error _) => (s1, .ok [])

/-! ### app/services/redis_job_service.py and app/api/routers/status.py

The Redis keyspace of ingestion_job:* records is a list of jobs; every
service call returns the store it leaves behind. -/

/-- The stuck predicate of RedisJobService.scan_stuck_jobs (lines
133-134): not in a terminal state and heartbeat older than the
threshold (strictly). -/
def stuckPred (now threshold : Int) (j : JobR) : Bool :=
  ¬ j.status = "completed" ∧ ¬ j.status = "failed" ∧ now - j.last_heartbeat > threshold

/-- RedisJobService.scan_stuck_jobs (lines 114-143): pure scan over
all persisted jobs; the store is returned unchanged because the method
only reads. -/
def scanStuckJobs (store : List JobR) (now threshold : Int) :
    List JobR × List JobR :=
  (store.filter (stuckPred now threshold), store)

/-- settings.WATCHDOG_THRESHOLD_SECONDS (config.py line 66). -/
def watchdogThresholdSeconds : Int := 600

/-- The candidate set the watchdog task reaps (tasks.py line 203). -/
def watchdogCandidates (store : List JobR) (now : Int) : List JobR :=
  (scanStuckJobs store now watchdogThresholdSeconds).1

/-- GET /health/jobs (status.py lines 29-46): returns the scan result
(converted field-for-field to JobStatusResponse) and performs no
write. -/
def getStuckJobsEndpoint (store : List JobR) (now : Int) :
    List JobR × List JobR :=
  scanStuckJobs store now watchdogThresholdSeconds

/-! ### app/background/tasks.py : _run_ingestion_async (lines 48-171)

Each pipeline phase is driven by an oracle outcome in PipeEnv: the
crawl, the processing loop, the embedding call and the index insertion
either produce a value or raise (Exc).  SoftTimeLimitExceeded is the
distinguished exception of the soft time budget.  Persistence of the
job record appends a snapshot to a log; update_job refreshes the
heartbeat on every call.  The final update_job may itself fail
(finalPersistOk), which is caught and logged. -/

/-- A raised Python exception: the Celery soft-time-limit signal or
any other exception with its message. -/
inductive Exc where
  | softTimeLimit : Exc
  | err : String → Exc
deriving DecidableEq, Repr

/-- The message _run_ingestion_async appends to job.errors for a
caught exception (lines 152 and 158). -/
def excMsg : Exc → String
  | .softTimeLimit => "Ingestion task exceeded soft time limit."
  | .err m => "Ingestion failed: " ++ m

/-- Oracle outcomes of one pipeline execution. -/
structure PipeEnv where
  seeds : List String
  locks : List Bool
  crawlRes : Except Exc (List CrawledDoc)
  processRes : Except Exc (List Chunk)
  embedRes : Except Exc (List (List ℚ))
  indexRes : Except Exc Nat
  finalPersistOk : Bool

/-- redis_job_service.update_job: refresh the heartbeat, persist the
record (append a snapshot to the log). -/
def updateJobLog (now : Int) (j : JobR) (log : List JobR) : JobR × List JobR :=
  let j1 := { j with last_heartbeat := now }
  (j1, log ++ [j1])

/-- The try block of _run_ingestion_async (lines 67-146): status
transitions, lock filtering of the seed URLs, the four phases, and the
final completed / no-chunks-indexed decision.  Returns the job as
mutated so far, the persisted snapshots, and the exception that
escaped the block, if any. -/
def runBody (env : PipeEnv) (now : Int) (job : JobR) :
    JobR × List JobR × Option Exc :=
  let p1 := updateJobLog now { job with status := "crawling" } []
  let j1 := p1.1
  let log1 := p1.2
  let crawlUrls := ((env.seeds.zip env.locks).filter (fun p => p.2)).map (fun p => p.1)
  if crawlUrls = [] then
    (j1, log1, some (.err "All specified URLs were skipped due to existing locks or no URLs to crawl."))
  else
    match env.crawlRes with
    | .error e => (j1, log1, some e)
    | .ok docs =>
      if docs = [] then
        (j1, log1, some (.err "No documents were fetched."))
      else
        let p2 := updateJobLog now { j1 with pages_fetched := docs.length } log1
        let p3 := updateJobLog now { p2.1 with status := "processing" } p2.2
        let j3 := p3.1
        match env.processRes with
        | .error e => (j3, p3.2, some e)
        | .ok allChunks =>
          let p4 := updateJobLog now { j3 with status := "embedding" } p3.2
          let j4 := p4.1
          match env.embedRes with
          | .error e => (j4, p4.2, some e)
          | .ok embeddings =>
            if embeddings = [] then
              (j4, p4.2, some (.err "Embedding generation failed."))
            else if embeddings.length < allChunks.length then
              (j4, p4.2, some (.err "list index out of range"))
            else
              let p5 := updateJobLog now { j4 with status := "indexing" } p4.2
              let j5 := p5.1
              match env.indexRes with
              | .error e => (j5, p5.2, some e)
              | .ok indexedCount =>
                if indexedCount = 0 ∧ ¬ allChunks = [] then
                  ({ j5 with
                      status := "failed"
                      errors := j5.errors ++
                        ["No chunks were indexed despite documents being available for processing."] },
                   p5.2, none)
                else
                  ({ j5 with
                      pages_indexed := j5.pages_fetched
                      total_chunks_indexed := indexedCount
                      status := "completed" }, p5.2, none)

/-- The initial persist of the pending status (lines 62-64), before
the try block. -/
def pendingStep (now : Int) (job0 : JobR) : JobR × List JobR :=
  updateJobLog now { job0 with status := "pending" } []

/-- _run_ingestion_async: pending persist, try block, the two except
clauses, and the finally block that stamps completed_at and persists
the record one last time (best effort); re-raises when the job ended
failed (the Bool).  Returns the final job object, all persisted
snapshots in order, and the re-raise flag. -/
def runIngestion (env : PipeEnv) (now : Int) (job0 : JobR) :
    JobR × List JobR × Bool :=
  let pp := pendingStep now job0
  let pb := runBody env now pp.1
  let jb := pb.1
  let j2 :=
    match pb.2.2 with
    | none => jb
    | some e =>
      { jb with
        status := "failed"
        errors := jb.errors ++ [excMsg e]
        pages_indexed := 0
        total_chunks_indexed := 0 }
  let j3 := { j2 with completed_at := some now }
  let jfin := { j3 with last_heartbeat := now }
  let logfin := pp.2 ++ pb.2.1 ++ (if env.finalPersistOk then [jfin] else [])
  (jfin, logfin, j3.status == "failed")

/-! ### app/api/routers/ingest.py, app/models/schemas.py,
app/dependencies.py

IngestRequest field validation happens in the pydantic schema; the
helper validate_ingest_request in dependencies.py implements the
documented bounds but is not attached to the route, so ingest_content
runs without it. -/

/-- An ingest request body before validation. -/
structure RawIngest where
  seed_urls : List String
  domain_allowlist : List String
  max_pages : Int
  max_depth : Int
  user_notes : Option String
deriving DecidableEq, Repr

/-- pydantic HttpUrl: the scheme must be http or https (host details
elided). -/
def isHttpUrl (u : String) : Bool :=
  "http://".isPrefixOf u ∨ "https://".isPrefixOf u

/-- Schema validation of IngestRequest (schemas.py lines 7-37): each
seed URL an HttpUrl, max_pages gt=0, max_depth ge=0.  The lists carry
no minimum length and the integers no upper bound. -/
def parseIngestRequest (r : RawIngest) : Option RawIngest :=
  if r.seed_urls.all isHttpUrl ∧ r.max_pages > 0 ∧ r.max_depth ≥ 0 then some r
  else none

/-- validate_ingest_request (dependencies.py lines 12-56): the
documented checks, raising HTTPException(400) with the listed detail
messages.  No route depends on it. -/
def validate_ingest_request (r : RawIngest) : Except String Unit :=
  if r.max_pages > 1000 then .error "max_pages cannot exceed 1000"
  else if r.max_depth > 5 then .error "max_depth cannot exceed 5"
  else if r.seed_urls.length = 0 then .error "At least one seed URL is required"
  else if r.domain_allowlist.length = 0 then .error "At least one domain must be allowed"
  else
    match r.seed_urls.find? (fun u => ¬ isHttpUrl u) with
    | some u => .error ("URL must use http:// or https:// scheme: " ++ u)
    | none => .ok ()

/-- redis set of a job record keyed by job_id (update of an existing
record). -/
def upsertJob (store : List JobR) (j : JobR) : List JobR :=
  store.map (fun x => if x.job_id == j.job_id then j else x)

/-- ingest_content (ingest.py lines 13-58) applied to a request that
passed schema validation: create the pending job, store it via
redis_job_service.create_job, then enqueue the Celery task; on enqueue
failure mark the stored job failed and answer 500.  In every branch
the job record is stored. -/
def ingest_content (store : List JobR) (req : RawIngest) (newJobId : String)
    (now : Int) (enqueueOk : Bool) : List JobR × Except String String :=
  let job : JobR :=
    { job_id := newJobId, status := "pending", started_at := now,
      completed_at := none, pages_fetched := 0, pages_indexed := 0,
      total_chunks_indexed := 0, errors := [], user_notes := req.user_notes,
      last_heartbeat := now }
  let store1 := store ++ [job]
  if enqueueOk then
    (store1, .ok newJobId)
  else
    let failed := { job with
      status := "failed"
      errors := job.errors ++ ["Failed to enqueue Celery task"]
      last_heartbeat := now }
    (upsertJob store1 failed, .error "Failed to enqueue ingestion task")

/-! ### Concrete instances used in counterexamples and witnesses -/

/-- A text whose second sentence (30 characters) exceeds a chunk size
of 10. -/
def textC2 : List Char := "ab. ".toList ++ List.replicate 30 'c'

/-- A placeholder chunk for confidence evaluation. -/
def chunkStub : Chunk := ⟨"c1", "http://example.com/", none, [], 0, 0, none⟩

/-- Three retrieved chunks at L2 distance 1/2 each (closer, hence
better evidence). -/
def retrListBetter : List (ℚ × Chunk) :=
  [(1/2, chunkStub), (1/2, chunkStub), (1/2, chunkStub)]

/-- Three retrieved chunks at L2 distance 9/10 each (farther, hence
worse evidence). -/
def retrListWorse : List (ℚ × Chunk) :=
  [(9/10, chunkStub), (9/10, chunkStub), (9/10, chunkStub)]

/-- Indexed chunks for the vector-store instances. -/
def caC4 : Chunk := ⟨"a", "http://a/", none, [], 0, 0, some [0]⟩

def cbC4 : Chunk := ⟨"b", "http://b/", none, [], 0, 0, some [1]⟩

/-- A resident one-dimensional index holding two distinct vectors. -/
def jdC4 : VSJobData := ⟨1, [[0], [1]], [("a", caC4), ("b", cbC4)], ["a", "b"]⟩

def sC4 : VSState := ⟨[("j", jdC4)], []⟩

/-- A resident one-dimensional index holding two identical vectors
(distance ties). -/
def jdTie : VSJobData := ⟨1, [[0], [0]], [("a", caC4), ("b", cbC4)], ["a", "b"]⟩

def sTie : VSState := ⟨[("j", jdTie)], []⟩

/-- An indexed chunk persisted on disk only. -/
def cOldC6 : Chunk := ⟨"old", "http://o/", none, [], 0, 0, some [5]⟩

def jdOld : VSJobData := ⟨1, [[5]], [("old", cOldC6)], ["old"]⟩

/-- State with no resident index for job j but a complete persisted
triple on disk. -/
def sDiskC6 : VSState := ⟨[], [("j", jdOld)]⟩

def cNewC6 : Chunk := ⟨"new", "http://n/", none, [], 0, 0, some [7]⟩

/-- Pipeline oracle where the crawl phase hits the soft time limit. -/
def env0 : PipeEnv :=
  { seeds := ["http://a.com/"], locks := [true],
    crawlRes := .error .softTimeLimit, processRes := .ok [],
    embedRes := .ok [], indexRes := .ok 0, finalPersistOk := true }

def job0R : JobR := ⟨"j1", "created", 0, none, 0, 0, 0, [], none, 0⟩

/-- An ingest request with empty lists and out-of-bound limits that
nevertheless passes the schema validation. -/
def rawBad : RawIngest := ⟨[], [], 2000, 9, none⟩

/-! ### Lemmas on the Python primitives -/

theorem length_dropWhile_le (p : Char → Bool) (l : List Char) :
    (l.dropWhile p).length ≤ l.length := by
  induction l with
  | nil => simp
  | cons a t ih =>
    by_cases h : p a
    · simp only [List.dropWhile, h]
      simp only [List.length_cons]
      omega
    · simp [List.dropWhile, h]

theorem length_pyStrip_le (l : List Char) : (pyStrip l).length ≤ l.length := by
  unfold pyStrip
  have h1 := length_dropWhile_le pyIsSpace l
  have h2 := length_dropWhile_le pyIsSpace (l.dropWhile pyIsSpace).reverse
  simp only [List.length_reverse] at *
  omega

/-! ### Claim C8 -/

/-- Claim C8: the stuck-job scan is a pure, non-consuming predicate
shared by the watchdog and the manual stuck-jobs listing: for a fixed
job-store state and fixed current time, running the scan twice in
succession with no intervening mutation yields the same candidate set
both times, namely exactly the jobs whose status is not completed or
failed and whose last_heartbeat is older than the threshold; the
listing endpoint mutates no job state. -/
theorem scan_stuck_jobs_pure_shared (store : List JobR) (now : Int) :
    (scanStuckJobs store now watchdogThresholdSeconds).2 = store
    ∧ (scanStuckJobs store now watchdogThresholdSeconds).1 =
        store.filter (fun j => ¬ j.status = "completed" ∧ ¬ j.status = "failed" ∧
          now - j.last_heartbeat > watchdogThresholdSeconds)
    ∧ (scanStuckJobs (scanStuckJobs store now watchdogThresholdSeconds).2 now
        watchdogThresholdSeconds).1 =
        (scanStuckJobs store now watchdogThresholdSeconds).1
    ∧ watchdogCandidates store now = (scanStuckJobs store now watchdogThresholdSeconds).1
    ∧ getStuckJobsEndpoint store now =
        ((scanStuckJobs store now watchdogThresholdSeconds).1, store) :=
  ⟨rfl, rfl, rfl, rfl, rfl⟩

/-! ### Claim C9 -/

/-- Claim C9: for every question, when the retrieved chunk list is
empty, the Generation Port returns a fixed, deterministic cannot-answer
response with an empty citation list and low confidence, and performs
no external model call; this holds for both configured generation
adapters (OpenAI and Gemini). -/
theorem generate_answer_empty_retrieval
    (llmO : List Char → List Char → Except String (List Char))
    (llmG : List (List Char) → Except String (List Char))
    (fmtScore : ℚ → List Char) (question : List Char) :
    openaiGenerateAnswer llmO fmtScore question [] = (cannotAnswerResponse, false)
    ∧ geminiGenerateAnswer llmG fmtScore question [] = (cannotAnswerResponse, false)
    ∧ cannotAnswerResponse.confidence = "low"
    ∧ cannotAnswerResponse.citations = [] :=
  ⟨rfl, rfl, rfl, rfl⟩

/-! ### Claim C10 -/

/-- Claim C10: Retriever.retrieve_chunks never propagates an
exception: if the query embedding comes back empty, or any exception
is raised while embedding the query or searching the vector store, it
returns the empty list. -/
theorem retrieve_chunks_never_raises (s : VSState)
    (e : Except String (List ℚ)) (jobId : String) (k : Nat) :
    (∃ r, (retrieveChunks s e jobId k).2 = .ok r)
    ∧ (∀ msg, e = .error msg → (retrieveChunks s e jobId k).2 = .ok [])
    ∧ (e = .ok [] → (retrieveChunks s e jobId k).2 = .ok [])
    ∧ (∀ q s1 msg, e = .ok q → searchVS s jobId q k = (s1, .error msg) →
        (retrieveChunks s e jobId k).2 = .ok []) := by
  refine ⟨?_, ?_, ?_, ?_⟩
  · cases e with
    | error m => exact ⟨[], rfl⟩
    | ok q =>
      by_cases hq : q.isEmpty
      · exact ⟨[], by simp [retrieveChunks, hq]⟩
      · rcases h : searchVS s jobId q k with ⟨s1, r⟩
        cases r with
        | ok results => exact ⟨results, by simp [retrieveChunks, hq, h]⟩
        | error m => exact ⟨[], by simp [retrieveChunks, hq, h]⟩
  · intro msg hmsg
    subst hmsg
    rfl
  · intro he
    subst he
    rfl
  · intro q s1 msg he hs
    subst he
    by_cases hq : q.isEmpty
    · simp [retrieveChunks, hq]
    · simp [retrieveChunks, hq, hs]

/-- Witness for C10 at a concrete failing embedder. -/
theorem retrieve_chunks_never_raises_witness :
    (retrieveChunks ⟨[], []⟩ (.error "boom") "job" 5).2 = .ok [] :=
  (retrieve_chunks_never_raises ⟨[], []⟩ (.error "boom") "job" 5).2.1 "boom" rfl

/-! ### Claim C1 -/

/-- Claim C1 (refuted as stated; code bug): the ingest endpoint is
claimed to reject an empty seed-URL list, an empty allowlist,
max_pages > 1000 and max_depth > 5 before any job is created.  The
checks exist in validate_ingest_request (dependencies.py) but the
route does not invoke them, and the pydantic schema carries no such
bounds: the request below passes schema validation and ingest_content
stores a pending job for it. -/
theorem ingest_stores_job_despite_invalid_request :
    parseIngestRequest rawBad = some rawBad
    ∧ validate_ingest_request rawBad = .error "max_pages cannot exceed 1000"
    ∧ rawBad.seed_urls = []
    ∧ rawBad.domain_allowlist = []
    ∧ rawBad.max_pages = 2000
    ∧ rawBad.max_depth = 9
    ∧ (ingest_content [] rawBad "job-1" 0 true).1 =
        [{ job_id := "job-1", status := "pending", started_at := 0,
           completed_at := none, pages_fetched := 0, pages_indexed := 0,
           total_chunks_indexed := 0, errors := [], user_notes := none,
           last_heartbeat := 0 }] := by
  refine ⟨?_, ?_, rfl, rfl, rfl, rfl, rfl⟩
  · rfl
  · rfl

/-! ### Claim C5 -/

/-- Claim C5 (refuted; code bug): _assess_confidence is claimed to be
monotonic in evidence quality for L2-distance scores (smaller is
better).  The heuristic treats larger scores as better: three chunks
at distance 1/2 each are assessed low while three chunks at distance
9/10 each (pointwise worse) are assessed high. -/
theorem confidence_not_monotone :
    assessConfidence retrListBetter = "low"
    ∧ assessConfidence retrListWorse = "high"
    ∧ retrListBetter.length = retrListWorse.length
    ∧ (∀ p ∈ retrListBetter.zip retrListWorse, p.1.1 ≤ p.2.1)
    ∧ confRank (assessConfidence retrListBetter) <
        confRank (assessConfidence retrListWorse) := by
  have hA : assessConfidence retrListBetter = "low" := by
    norm_num [assessConfidence, retrListBetter, chunkStub]
  have hB : assessConfidence retrListWorse = "high" := by
    norm_num [assessConfidence, retrListWorse, chunkStub]
  refine ⟨hA, hB, rfl, ?_, ?_⟩
  · intro p hp
    simp only [retrListBetter, retrListWorse, chunkStub, List.zip_cons_cons,
      List.zip_nil_right, List.mem_cons, List.not_mem_nil, or_false] at hp
    rcases hp with h | h | h <;> subst h <;> norm_num
  · rw [hA, hB]
    decide

/-! ### Claim C3 -/

/-- On every path of the try block that ends in an exception, the job
object carries its original error list (errors are only appended by
the zero-indexed branch, which does not raise). -/
theorem runBody_error_fields (env : PipeEnv) (now : Int) (j : JobR) (e : Exc)
    (h : (runBody env now j).2.2 = some e) :
    (runBody env now j).1.errors = j.errors := by
  rcases env with ⟨seeds, locks, crawlRes, processRes, embedRes, indexRes, fok⟩
  rcases crawlRes with e1 | docs <;>
    rcases processRes with e2 | chunks <;>
    rcases embedRes with e3 | embs <;>
    rcases indexRes with e4 | cnt <;>
    simp only [runBody, updateJobLog] at h ⊢ <;>
    split_ifs at h ⊢ <;>
    simp_all

/-- Claim C3: for every execution of the ingestion pipeline for a job,
any exception raised in any phase is caught at the top level, a
human-readable message is appended to the job's errors list, the job's
status is set to failed (with a distinct error text when the soft time
limit is exceeded), and in every execution, success or failure, the
completed_at timestamp is set and the job record is persisted as the
guaranteed last step. -/
theorem pipeline_failure_containment (env : PipeEnv) (now : Int) (job0 : JobR) :
    (runIngestion env now job0).1.completed_at = some now
    ∧ (env.finalPersistOk = true →
        (runIngestion env now job0).2.1.getLast? = some (runIngestion env now job0).1)
    ∧ (∀ e, (runBody env now (pendingStep now job0).1).2.2 = some e →
        (runIngestion env now job0).1.status = "failed"
        ∧ (runIngestion env now job0).1.errors = job0.errors ++ [excMsg e])
    ∧ (∀ m, excMsg .softTimeLimit ≠ excMsg (.err m)) := by
  refine ⟨?_, ?_, ?_, ?_⟩
  · unfold runIngestion
    rcases h : (runBody env now (pendingStep now job0).1).2.2 with _ | e <;>
      simp [h]
  · intro hp
    unfold runIngestion
    rcases h : (runBody env now (pendingStep now job0).1).2.2 with _ | e <;>
      simp [h, hp, List.getLast?_concat]
  · intro e he
    have herr := runBody_error_fields env now (pendingStep now job0).1 e he
    have herr0 : (pendingStep now job0).1.errors = job0.errors := rfl
    unfold runIngestion
    simp [he, herr, herr0]
  · intro m hm
    have h1 : ("Ingestion task exceeded soft time limit.").data =
        ("Ingestion failed: " ++ m).data := congrArg String.data hm
    rw [String.data_append] at h1
    have h2 := congrArg (fun l => l.take 11) h1
    simp only [] at h2
    rw [List.take_append_of_le_length (by decide)] at h2
    exact absurd h2 (by decide)

/-- Witness for C3: the crawl phase hits the soft time limit; the job
ends failed with the distinct soft-time-limit message, completed_at is
stamped and the final record is the last persisted snapshot. -/
theorem pipeline_failure_containment_witness :
    (runIngestion env0 0 job0R).1.status = "failed"
    ∧ (runIngestion env0 0 job0R).1.errors = ["Ingestion task exceeded soft time limit."]
    ∧ (runIngestion env0 0 job0R).1.completed_at = some 0
    ∧ (runIngestion env0 0 job0R).2.1.getLast? = some (runIngestion env0 0 job0R).1 := by
  have h := pipeline_failure_containment env0 0 job0R
  have hb : (runBody env0 0 (pendingStep 0 job0R).1).2.2 = some Exc.softTimeLimit := by
    decide
  refine ⟨(h.2.2.1 Exc.softTimeLimit hb).1, ?_, h.1, h.2.1 rfl⟩
  have := (h.2.2.1 Exc.softTimeLimit hb).2
  simpa [job0R, excMsg] using this

/-! ### Claim C7 -/

/-- Invariant of the crawl loop: assuming the collected documents are
within the page budget, have pairwise distinct URLs, and all their
URLs are marked visited, the loop result is within the budget and has
pairwise distinct URLs.  The outer induction is on a bound N for the
remaining page budget, the inner one on the frontier (the only
recursive call that grows the frontier also grows the collected
list). -/
theorem crawlLoop_inv (fetch : String → Option String)
    (getLinks : String → String → List String) (maxPages maxDepth : Nat) :
    ∀ (N : Nat) (frontier : List (String × Nat)) (visited : List String)
      (crawled : List CrawledDoc),
      maxPages - crawled.length ≤ N →
      crawled.length ≤ maxPages →
      (crawled.map CrawledDoc.url).Nodup →
      (∀ doc ∈ crawled, doc.url ∈ visited) →
      (crawlLoop fetch getLinks maxPages maxDepth frontier visited crawled).length ≤ maxPages
      ∧ ((crawlLoop fetch getLinks maxPages maxDepth frontier visited crawled).map
          CrawledDoc.url).Nodup := by
  intro N
  induction N with
  | zero =>
    intro frontier visited crawled hN hlen hnodup hvis
    have hfull : ¬ crawled.length < maxPages := by omega
    cases frontier with
    | nil => rw [crawlLoop.eq_def]; exact ⟨hlen, hnodup⟩
    | cons head rest =>
      obtain ⟨u, d⟩ := head
      rw [crawlLoop.eq_def]
      simp only [if_neg hfull]
      exact ⟨hlen, hnodup⟩
  | succ N ih =>
    intro frontier
    induction frontier with
    | nil =>
      intro visited crawled hN hlen hnodup hvis
      rw [crawlLoop.eq_def]
      exact ⟨hlen, hnodup⟩
    | cons head rest ihf =>
      rcases head with ⟨u, d⟩
      intro visited crawled hN hlen hnodup hvis
      rw [crawlLoop.eq_def]
      by_cases hp : crawled.length < maxPages
      · simp only [if_pos hp]
        by_cases hv : u ∈ visited
        · simp only [if_pos hv]
          exact ihf visited crawled hN hlen hnodup hvis
        · have hnp : ¬ maxPages ≤ crawled.length := by omega
          simp only [if_neg hv, if_neg hnp]
          by_cases hd : maxDepth < d
          · simp only [if_pos hd]
            exact ihf visited crawled hN hlen hnodup hvis
          · simp only [if_neg hd]
            cases hf : fetch u with
            | none =>
              refine ihf (u :: visited) crawled hN hlen hnodup ?_
              intro doc hdoc
              exact List.mem_cons_of_mem _ (hvis doc hdoc)
            | some html =>
              have hu : u ∉ crawled.map CrawledDoc.url := by
                intro hmem
                rcases List.mem_map.mp hmem with ⟨doc, hdoc, hurl⟩
                exact hv (hurl ▸ hvis doc hdoc)
              refine ih _ (u :: visited) (crawled ++ [⟨u, html⟩]) ?_ ?_ ?_ ?_
              · simp only [List.length_append, List.length_singleton]
                omega
              · simp only [List.length_append, List.length_singleton]
                omega
              · rw [List.map_append]
                simp [List.nodup_append, hnodup, hu]
              · intro doc hdoc
                rcases List.mem_append.mp hdoc with h1 | h1
                · exact List.mem_cons_of_mem _ (hvis doc h1)
                · simp only [List.mem_singleton] at h1
                  subst h1
                  exact List.mem_cons_self _ _
      · simp only [if_neg hp]
        exact ⟨hlen, hnodup⟩

/-- Claim C7: for every crawl invocation, the returned document list
contains at most maxPages documents and no URL appears in it twice
(the visited set prevents refetching); the loop as embedded pops the
frontier head (FIFO) and stops when maxPages documents are collected
or the frontier is empty. -/
theorem crawl_bounded_and_nodup (fetch : String → Option String)
    (getLinks : String → String → List String) (seeds : List String)
    (maxPages maxDepth : Nat) :
    (webCrawl fetch getLinks seeds maxPages maxDepth).length ≤ maxPages
    ∧ ((webCrawl fetch getLinks seeds maxPages maxDepth).map CrawledDoc.url).Nodup := by
  exact crawlLoop_inv fetch getLinks maxPages maxDepth maxPages
    (seeds.map (fun u => (u, 0))) [] [] (by simp) (by simp) (by simp)
    (by intro doc hdoc; simp at hdoc)

/-! ### Claim C4 (and lemmas shared with C6) -/

theorem lookupA_mem {α : Type} (m : List (String × α)) (k : String) (v : α)
    (h : lookupA m k = some v) : (k, v) ∈ m := by
  unfold lookupA at h
  cases hf : m.find? (fun p => p.1 == k) with
  | none => rw [hf] at h; simp at h
  | some p =>
    rw [hf] at h
    simp only [Option.map_some', Option.some.injEq] at h
    have hp := List.find?_some hf
    have hmem := List.mem_of_find?_eq_some hf
    have : p.1 = k := by simpa using hp
    have : p = (k, v) := by
      rcases p with ⟨k1, v1⟩
      simp only at h this
      simp [this, h]
    exact this ▸ hmem

theorem mem_upsertA {α : Type} (m : List (String × α)) (k : String) (v : α)
    (p : String × α) (hp : p ∈ upsertA m k v) : p = (k, v) ∨ p ∈ m := by
  induction m with
  | nil => simpa [upsertA] using hp
  | cons q rest ih =>
    rcases q with ⟨k1, v1⟩
    unfold upsertA at hp
    by_cases h : k1 == k
    · rw [if_pos h] at hp
      rcases List.mem_cons.mp hp with h1 | h1
      · exact Or.inl h1
      · exact Or.inr (List.mem_cons_of_mem _ h1)
    · rw [if_neg h] at hp
      rcases List.mem_cons.mp hp with h1 | h1
      · exact Or.inr (h1 ▸ List.mem_cons_self _ _)
      · rcases ih h1 with h2 | h2
        · exact Or.inl h2
        · exact Or.inr (List.mem_cons_of_mem _ h2)

theorem mem_foldl_upsertA {α β : Type} (f : β → String) (g : β → α)
    (l : List β) (m0 : List (String × α)) (p : String × α)
    (hp : p ∈ l.foldl (fun m b => upsertA m (f b) (g b)) m0) :
    p ∈ m0 ∨ ∃ b ∈ l, p = (f b, g b) := by
  induction l generalizing m0 with
  | nil => exact Or.inl hp
  | cons b rest ih =>
    simp only [List.foldl_cons] at hp
    rcases ih (upsertA m0 (f b) (g b)) hp with h1 | h1
    · rcases mem_upsertA m0 (f b) (g b) p h1 with h2 | h2
      · exact Or.inr ⟨b, List.mem_cons_self _ _, h2⟩
      · exact Or.inl h2
    · rcases h1 with ⟨b1, hb1, he⟩
      exact Or.inr ⟨b1, List.mem_cons_of_mem _ hb1, he⟩

theorem lookupA_upsertA_self {α : Type} (m : List (String × α)) (k : String) (v : α) :
    lookupA (upsertA m k v) k = some v := by
  induction m with
  | nil => simp [upsertA, lookupA]
  | cons q rest ih =>
    rcases q with ⟨k1, v1⟩
    unfold upsertA
    by_cases h : k1 == k
    · rw [if_pos h]
      simp [lookupA]
    · rw [if_neg h]
      simp only [lookupA, List.find?_cons] at ih ⊢
      have h2 : (k1 == k) = false := by simpa using h
      rw [h2]
      exact ih

theorem lookupA_upsertA_ne {α : Type} (m : List (String × α)) (k k1 : String) (v : α)
    (hk : ¬ k1 = k) : lookupA (upsertA m k v) k1 = lookupA m k1 := by
  induction m with
  | nil =>
    simp only [upsertA, lookupA, List.find?_cons, List.find?_nil]
    have h2 : (k == k1) = false := by
      simp only [beq_eq_false_iff_ne, ne_eq]
      intro h
      exact hk h.symm
    rw [h2]
  | cons q rest ih =>
    rcases q with ⟨k2, v2⟩
    unfold upsertA
    by_cases h : k2 == k
    · rw [if_pos h]
      have hkk : k2 = k := by simpa using h
      subst hkk
      simp only [lookupA, List.find?_cons]
      have h2 : (k2 == k1) = false := by
        simp only [beq_eq_false_iff_ne, ne_eq]
        intro h3
        exact hk h3.symm
      rw [h2]
    · rw [if_neg h]
      simp only [lookupA, List.find?_cons] at ih ⊢
      cases h3 : (k2 == k1) with
      | true => simp
      | false => exact ih

theorem lookupA_foldl_upsertA_not_mem {α β : Type} (f : β → String) (g : β → α)
    (l : List β) (m0 : List (String × α)) (k : String)
    (hk : ∀ b ∈ l, ¬ f b = k) :
    lookupA (l.foldl (fun m b => upsertA m (f b) (g b)) m0) k = lookupA m0 k := by
  induction l generalizing m0 with
  | nil => rfl
  | cons b rest ih =>
    simp only [List.foldl_cons]
    rw [ih (upsertA m0 (f b) (g b)) (fun b1 hb1 => hk b1 (List.mem_cons_of_mem _ hb1))]
    exact lookupA_upsertA_ne m0 (f b) k (g b)
      (fun h => hk b (List.mem_cons_self _ _) h.symm)

theorem metaInv_mono (s : VSState) (j : String) (added added' : List Chunk)
    (hsub : ∀ c ∈ added, c ∈ added') (h : MetaInvVS s j added) :
    MetaInvVS s j added' :=
  ⟨fun jd hjd cid c hc => hsub c (h.1 jd hjd cid c hc),
   fun jd hjd cid c hc => hsub c (h.2 jd hjd cid c hc)⟩

theorem metaInv_reload (s : VSState) (j : String) (added : List Chunk)
    (h : MetaInvVS s j added) : MetaInvVS (reloadVS s) j added := by
  constructor
  · intro jd hjd cid c hc
    rcases mem_foldl_upsertA Prod.fst Prod.snd s.disk s.mem (j, jd) hjd with h1 | h1
    · exact h.1 jd h1 cid c hc
    · rcases h1 with ⟨b, hb, he⟩
      have : (j, jd) = b := by
        rcases b with ⟨b1, b2⟩
        simpa using he
      exact h.2 jd (this ▸ hb) cid c hc
  · exact h.2

theorem searchResident_spec (jd : VSJobData) (q : List ℚ) (k : Nat)
    (res : List (ℚ × Chunk)) (h : searchResident jd q k = .ok res) :
    res.length ≤ min k jd.vectors.length
    ∧ List.Pairwise distLe res
    ∧ ∀ p ∈ res, ∃ cid, (cid, p.2) ∈ jd.metadata := by
  unfold searchResident at h
  by_cases hd : q.length ≠ jd.d
  · rw [if_pos hd] at h
    simp at h
  · rw [if_neg hd] at h
    simp only [Except.ok.injEq] at h
    subst h
    set results := (faissSearch jd.vectors q k).filterMap
      (fun p =>
        if h : p.2 < jd.idMap.length then
          match lookupA jd.metadata (jd.idMap.get ⟨p.2, h⟩) with
          | some chunk => some (p.1, chunk)
          | none => none
        else none) with hres
    refine ⟨?_, ?_, ?_⟩
    · have h1 : (results.insertionSort distLe).length = results.length :=
        (List.perm_insertionSort distLe results).length_eq
      have h2 : results.length ≤ (faissSearch jd.vectors q k).length := by
        rw [hres]
        exact List.length_filterMap_le _ _
      have h3 : (faissSearch jd.vectors q k).length = min k jd.vectors.length := by
        unfold faissSearch
        rw [List.length_take]
        have h4 : ((jd.vectors.enum.map
            (fun p => (sqDist q p.2, p.1))).insertionSort faissLe).length =
            jd.vectors.length := by
          rw [(List.perm_insertionSort faissLe _).length_eq]
          simp
        rw [h4]
      omega
    · exact List.sorted_insertionSort distLe results
    · intro p hp
      have hmem : p ∈ results :=
        (List.perm_insertionSort distLe results).mem_iff.mp hp
      rw [hres] at hmem
      rcases List.mem_filterMap.mp hmem with ⟨a, _, hfa⟩
      by_cases hlt : a.2 < jd.idMap.length
      · rw [dif_pos hlt] at hfa
        cases hl : lookupA jd.metadata (jd.idMap.get ⟨a.2, hlt⟩) with
        | none => rw [hl] at hfa; simp at hfa
        | some chunk =>
          rw [hl] at hfa
          simp only [Option.some.injEq] at hfa
          refine ⟨jd.idMap.get ⟨a.2, hlt⟩, ?_⟩
          have := lookupA_mem jd.metadata (jd.idMap.get ⟨a.2, hlt⟩) chunk hl
          rw [← hfa]
          exact this
      · rw [dif_neg hlt] at hfa
        simp at hfa

/-- Branch equation: search with a resident index. -/
theorem searchVS_resident (s : VSState) (j : String) (q : List ℚ) (k : Nat)
    (jd : VSJobData) (hm : lookupA s.mem j = some jd) :
    searchVS s j q k = (s, searchResident jd q k) := by
  unfold searchVS
  rw [hm]

/-- Branch equation: search of a non-resident job reloads from disk
and finds the job there. -/
theorem searchVS_reload_hit (s : VSState) (j : String) (q : List ℚ) (k : Nat)
    (jd : VSJobData) (hm : lookupA s.mem j = none)
    (hm2 : lookupA (reloadVS s).mem j = some jd) :
    searchVS s j q k = (reloadVS s, searchResident jd q k) := by
  unfold searchVS
  rw [hm]
  dsimp only
  rw [hm2]

/-- Branch equation: search of a job absent from memory and, after the
reload, still absent. -/
theorem searchVS_reload_miss (s : VSState) (j : String) (q : List ℚ) (k : Nat)
    (hm : lookupA s.mem j = none)
    (hm2 : lookupA (reloadVS s).mem j = none) :
    searchVS s j q k = (reloadVS s, .ok []) := by
  unfold searchVS
  rw [hm]
  dsimp only
  rw [hm2]

/-- Branch equation: add_documents with a non-resident job id creates
a fresh empty index whatever the disk holds. -/
theorem addDocumentsVS_fresh (s : VSState) (j : String) (cs : List Chunk)
    (c0 : Chunk) (rest : List Chunk) (e0 : List ℚ) (hcs : cs = c0 :: rest)
    (hemb : c0.embedding = some e0) (hval : embValid e0.length cs = true)
    (hm : lookupA s.mem j = none) :
    addDocumentsVS s j cs =
      (⟨upsertA s.mem j (vsInsert ⟨e0.length, [], [], []⟩ cs),
        upsertA s.disk j (vsInsert ⟨e0.length, [], [], []⟩ cs)⟩, .ok cs.length) := by
  subst hcs
  unfold addDocumentsVS
  dsimp only
  rw [hemb]
  dsimp only
  rw [if_neg (by rw [hval]; simp), hm]

/-- Branch equation: add_documents with a resident index of matching
dimension appends to it. -/
theorem addDocumentsVS_append (s : VSState) (j : String) (cs : List Chunk)
    (c0 : Chunk) (rest : List Chunk) (e0 : List ℚ) (jd : VSJobData)
    (hcs : cs = c0 :: rest) (hemb : c0.embedding = some e0)
    (hval : embValid e0.length cs = true) (hm : lookupA s.mem j = some jd)
    (hdim : jd.d = e0.length) :
    addDocumentsVS s j cs =
      (⟨upsertA s.mem j (vsInsert jd cs), upsertA s.disk j (vsInsert jd cs)⟩,
       .ok cs.length) := by
  subst hcs
  unfold addDocumentsVS
  dsimp only
  rw [hemb]
  dsimp only
  rw [if_neg (by rw [hval]; simp), hm]
  dsimp only
  rw [if_neg (by simp [hdim])]

/-- In every branch of add_documents, the resulting state is either
unchanged (empty input or a raised validation error) or the upsert of
the insertion into a base index that is the resident one or a fresh
empty one. -/
theorem addDocumentsVS_state (s : VSState) (j : String) (cs : List Chunk) :
    (addDocumentsVS s j cs).1 = s
    ∨ (∃ d : Nat, lookupA s.mem j = none ∧
        (addDocumentsVS s j cs).1 =
          ⟨upsertA s.mem j (vsInsert ⟨d, [], [], []⟩ cs),
           upsertA s.disk j (vsInsert ⟨d, [], [], []⟩ cs)⟩)
    ∨ (∃ jd, lookupA s.mem j = some jd ∧
        (addDocumentsVS s j cs).1 =
          ⟨upsertA s.mem j (vsInsert jd cs), upsertA s.disk j (vsInsert jd cs)⟩) := by
  cases cs with
  | nil => exact Or.inl rfl
  | cons c0 rest =>
    cases hemb : c0.embedding with
    | none =>
      left
      unfold addDocumentsVS
      dsimp only
      rw [hemb]
    | some e0 =>
      by_cases hval : embValid e0.length (c0 :: rest) = true
      · cases hm : lookupA s.mem j with
        | none =>
          right
          left
          exact ⟨e0.length, rfl, by
            rw [addDocumentsVS_fresh s j (c0 :: rest) c0 rest e0 rfl hemb hval hm]⟩
        | some jd =>
          by_cases hdim : jd.d = e0.length
          · right
            right
            exact ⟨jd, rfl, by
              rw [addDocumentsVS_append s j (c0 :: rest) c0 rest e0 jd rfl hemb hval hm hdim]⟩
          · left
            unfold addDocumentsVS
            dsimp only
            rw [hemb]
            dsimp only
            rw [if_neg (by rw [hval]; simp), hm]
            dsimp only
            rw [if_pos (by simp [hdim])]
      · left
        unfold addDocumentsVS
        dsimp only
        rw [hemb]
        dsimp only
        rw [if_pos (by simpa using hval)]

/-- Claim C4 (amended: distances are non-decreasing rather than
strictly ascending): for every store state whose recorded chunks for a
job all come from the list added (an invariant holding for the empty
store, preserved by add_documents and by search), a successful search
returns at most min k ntotal results, sorted by non-decreasing
distance, and every returned chunk is one previously added under that
job id; add_documents extends the invariant exactly by the chunks it
inserts. -/
theorem vector_search_bounded_sorted_members :
    (∀ (s : VSState) (j : String) (q : List ℚ) (k : Nat) (added : List Chunk)
        (s1 : VSState) (res : List (ℚ × Chunk)),
      MetaInvVS s j added → searchVS s j q k = (s1, .ok res) →
        res.length ≤ min k (ntotalVS s1 j)
        ∧ List.Pairwise (fun a b : ℚ × Chunk => a.1 ≤ b.1) res
        ∧ ∀ p ∈ res, p.2 ∈ added)
    ∧ (∀ (s : VSState) (j : String) (q : List ℚ) (k : Nat) (added : List Chunk)
        (s1 : VSState) (r : Except String (List (ℚ × Chunk))),
      MetaInvVS s j added → searchVS s j q k = (s1, r) → MetaInvVS s1 j added)
    ∧ (∀ (s : VSState) (j j1 : String) (cs : List Chunk) (added : List Chunk)
        (s1 : VSState) (r : Except String Nat),
      MetaInvVS s j added → addDocumentsVS s j1 cs = (s1, r) →
        MetaInvVS s1 j (if j1 = j then added ++ cs else added))
    ∧ (∀ j : String, MetaInvVS ⟨[], []⟩ j []) := by
  have hresident : ∀ (s : VSState) (j : String) (q : List ℚ) (k : Nat)
      (added : List Chunk) (jd : VSJobData) (res : List (ℚ × Chunk)),
      (∀ jd1, (j, jd1) ∈ s.mem → ∀ cid c, (cid, c) ∈ jd1.metadata → c ∈ added) →
      lookupA s.mem j = some jd → searchResident jd q k = .ok res →
      res.length ≤ min k (ntotalVS s j)
      ∧ List.Pairwise (fun a b : ℚ × Chunk => a.1 ≤ b.1) res
      ∧ ∀ p ∈ res, p.2 ∈ added := by
    intro s j q k added jd res hinv hm hok
    have hspec := searchResident_spec jd q k res hok
    have hnt : ntotalVS s j = jd.vectors.length := by
      unfold ntotalVS
      rw [hm]
    refine ⟨by rw [hnt]; exact hspec.1, hspec.2.1, ?_⟩
    intro p hp
    rcases hspec.2.2 p hp with ⟨cid, hcid⟩
    exact hinv jd (lookupA_mem s.mem j jd hm) cid p.2 hcid
  refine ⟨?_, ?_, ?_, ?_⟩
  · intro s j q k added s1 res hinv heq
    cases hm : lookupA s.mem j with
    | some jd =>
      rw [searchVS_resident s j q k jd hm] at heq
      simp only [Prod.mk.injEq] at heq
      rcases heq with ⟨hs1, hok⟩
      subst hs1
      exact hresident s j q k added jd res hinv.1 hm hok
    | none =>
      cases hm2 : lookupA (reloadVS s).mem j with
      | some jd =>
        rw [searchVS_reload_hit s j q k jd hm hm2] at heq
        simp only [Prod.mk.injEq] at heq
        rcases heq with ⟨hs1, hok⟩
        subst hs1
        exact hresident (reloadVS s) j q k added jd res
          (metaInv_reload s j added hinv).1 hm2 hok
      | none =>
        rw [searchVS_reload_miss s j q k hm hm2] at heq
        simp only [Prod.mk.injEq] at heq
        rcases heq with ⟨hs1, hok⟩
        subst hs1
        have hres : res = [] := by simpa using hok.symm
        subst hres
        simp
  · intro s j q k added s1 r hinv heq
    cases hm : lookupA s.mem j with
    | some jd =>
      rw [searchVS_resident s j q k jd hm] at heq
      simp only [Prod.mk.injEq] at heq
      rcases heq with ⟨hs1, _⟩
      subst hs1
      exact hinv
    | none =>
      cases hm2 : lookupA (reloadVS s).mem j with
      | some jd =>
        rw [searchVS_reload_hit s j q k jd hm hm2] at heq
        simp only [Prod.mk.injEq] at heq
        rcases heq with ⟨hs1, _⟩
        subst hs1
        exact metaInv_reload s j added hinv
      | none =>
        rw [searchVS_reload_miss s j q k hm hm2] at heq
        simp only [Prod.mk.injEq] at heq
        rcases heq with ⟨hs1, _⟩
        subst hs1
        exact metaInv_reload s j added hinv
  · intro s j j1 cs added s1 r hinv heq
    have hs1 : s1 = (addDocumentsVS s j1 cs).1 := by rw [heq]
    have hmeta : ∀ (base : VSJobData),
        (∀ cid c, (cid, c) ∈ base.metadata → c ∈ added) →
        ∀ cid c, (cid, c) ∈ (vsInsert base cs).metadata → c ∈ added ++ cs := by
      intro base hbase cid c hc
      unfold vsInsert at hc
      simp only at hc
      rcases mem_foldl_upsertA (fun c : Chunk => c.chunk_id) (fun c => c) cs
        base.metadata (cid, c) hc with h1 | h1
      · exact List.mem_append_left _ (hbase cid c h1)
      · rcases h1 with ⟨b, hb, he⟩
        have hcb : c = b := by simpa using congrArg Prod.snd he
        exact List.mem_append_right _ (hcb ▸ hb)
    have hupsert : ∀ (base : VSJobData),
        (j1 = j → ∀ cid c, (cid, c) ∈ base.metadata → c ∈ added) →
        s1 = ⟨upsertA s.mem j1 (vsInsert base cs), upsertA s.disk j1 (vsInsert base cs)⟩ →
        MetaInvVS s1 j (if j1 = j then added ++ cs else added) := by
      intro base hbase hs
      subst hs
      constructor
      · intro jd hjd cid c hc
        rcases mem_upsertA s.mem j1 (vsInsert base cs) (j, jd) hjd with h1 | h1
        · have hj : j = j1 := congrArg Prod.fst h1
          have hjd1 : jd = vsInsert base cs := congrArg Prod.snd h1
          rw [← hj, if_pos rfl]
          exact hmeta base (hbase hj.symm) cid c (hjd1 ▸ hc)
        · by_cases hjj : j1 = j
          · rw [if_pos hjj]
            exact List.mem_append_left _ (hinv.1 jd h1 cid c hc)
          · rw [if_neg hjj]
            exact hinv.1 jd h1 cid c hc
      · intro jd hjd cid c hc
        rcases mem_upsertA s.disk j1 (vsInsert base cs) (j, jd) hjd with h1 | h1
        · have hj : j = j1 := congrArg Prod.fst h1
          have hjd1 : jd = vsInsert base cs := congrArg Prod.snd h1
          rw [← hj, if_pos rfl]
          exact hmeta base (hbase hj.symm) cid c (hjd1 ▸ hc)
        · by_cases hjj : j1 = j
          · rw [if_pos hjj]
            exact List.mem_append_left _ (hinv.2 jd h1 cid c hc)
          · rw [if_neg hjj]
            exact hinv.2 jd h1 cid c hc
    rcases addDocumentsVS_state s j1 cs with hcase | ⟨d, hm, hcase⟩ | ⟨jd, hm, hcase⟩
    · rw [hcase] at hs1
      rw [hs1]
      by_cases hjj : j1 = j
      · rw [if_pos hjj]
        exact metaInv_mono s j added (added ++ cs)
          (fun c hc => List.mem_append_left _ hc) hinv
      · rw [if_neg hjj]
        exact hinv
    · refine hupsert ⟨d, [], [], []⟩ ?_ (by rw [hs1, hcase])
      intro _ cid c hc
      simp at hc
    · refine hupsert jd ?_ (by rw [hs1, hcase])
      intro hjj cid c hc
      subst hjj
      exact hinv.1 jd (lookupA_mem s.mem j1 jd hm) cid c hc
  · intro j
    constructor
    · intro jd hjd
      simp at hjd
    · intro jd hjd
      simp at hjd

/-- Witness for C4 on a concrete two-vector index. -/
theorem vector_search_bounded_sorted_members_witness :
    [((0:ℚ), caC4), (1, cbC4)].length ≤ min 5 (ntotalVS sC4 "j")
    ∧ List.Pairwise (fun a b : ℚ × Chunk => a.1 ≤ b.1) [((0:ℚ), caC4), (1, cbC4)]
    ∧ ∀ p ∈ [((0:ℚ), caC4), (1, cbC4)], p.2 ∈ [caC4, cbC4] := by
  have hinv : MetaInvVS sC4 "j" [caC4, cbC4] := by
    constructor
    · intro jd hjd cid c hc
      simp only [sC4, List.mem_singleton, Prod.mk.injEq] at hjd
      rw [hjd.2] at hc
      simp only [jdC4, List.mem_cons, List.not_mem_nil, or_false,
        Prod.mk.injEq] at hc
      rcases hc with ⟨_, hc⟩ | ⟨_, hc⟩
      · rw [← hc]
        simp
      · rw [← hc]
        simp
    · intro jd hjd
      simp [sC4] at hjd
  have hok : searchResident jdC4 [0] 5 = .ok [(0, caC4), (1, cbC4)] := by
    norm_num [searchResident, faissSearch, jdC4, sqDist, List.enum,
      List.enumFrom, List.insertionSort, List.orderedInsert, faissLe, distLe,
      lookupA, caC4, cbC4]
  have heq : searchVS sC4 "j" [0] 5 = (sC4, .ok [(0, caC4), (1, cbC4)]) := by
    rw [searchVS_resident sC4 "j" [0] 5 jdC4 rfl, hok]
  exact vector_search_bounded_sorted_members.1 sC4 "j" [0] 5 [caC4, cbC4] sC4
    [((0:ℚ), caC4), (1, cbC4)] hinv heq

/-- Counterexample for C4 as stated: with two identical indexed
vectors the two returned distances are equal, so the distance sequence
is not strictly ascending. -/
theorem search_distances_not_strictly_ascending :
    (searchVS sTie "j" [0] 2).2 = .ok [(0, caC4), (0, cbC4)]
    ∧ ¬ List.Pairwise (fun a b : ℚ × Chunk => a.1 < b.1)
        [((0:ℚ), caC4), ((0:ℚ), cbC4)] := by
  constructor
  · have hok : searchResident jdTie [0] 2 = .ok [(0, caC4), (0, cbC4)] := by
      norm_num [searchResident, faissSearch, jdTie, sqDist, List.enum,
        List.enumFrom, List.insertionSort, List.orderedInsert, faissLe, distLe,
        lookupA, caC4, cbC4]
    rw [searchVS_resident sTie "j" [0] 2 jdTie rfl, hok]
  · intro h
    simp only [List.pairwise_cons, List.mem_cons, List.not_mem_nil] at h
    have := h.1 ((0:ℚ), cbC4) (by simp)
    exact absurd this (by norm_num)

/-! ### Claim C6 -/

theorem lookupA_foldl_upsertA_mem {α β : Type} (f : β → String) (g : β → α)
    (l : List β) (m0 : List (String × α)) (b : β) (hb : b ∈ l)
    (hnodup : (l.map f).Nodup) :
    lookupA (l.foldl (fun m x => upsertA m (f x) (g x)) m0) (f b) = some (g b) := by
  revert hb hnodup
  induction l generalizing m0 with
  | nil =>
    intro hb _
    simp at hb
  | cons x rest ih =>
    intro hb hnodup
    simp only [List.foldl_cons]
    rcases List.mem_cons.mp hb with hbx | hbr
    · subst hbx
      have hnot : ∀ b1 ∈ rest, ¬ f b1 = f b := by
        intro b1 hb1 hf
        have := (List.nodup_cons.mp hnodup).1
        exact this (hf ▸ List.mem_map_of_mem f hb1)
      rw [lookupA_foldl_upsertA_not_mem f g rest (upsertA m0 (f b) (g b)) (f b) hnot]
      exact lookupA_upsertA_self m0 (f b) (g b)
    · exact ih (upsertA m0 (f x) (g x)) hbr (List.nodup_cons.mp hnodup).2

/-- Claim C6 (amended: only search reloads lazily): a search that
references a job id not resident in memory first loads all persisted
triples from disk and operates on the loaded state (in particular a
job whose complete triple is on disk is found after the reload),
whereas add_documents with a non-resident job id performs no reload
and starts a fresh empty index, whatever the disk holds. -/
theorem search_reloads_add_documents_does_not :
    (∀ (s : VSState) (j : String) (q : List ℚ) (k : Nat) (jd : VSJobData),
      lookupA s.mem j = none → lookupA (reloadVS s).mem j = some jd →
      searchVS s j q k = (reloadVS s, searchResident jd q k))
    ∧ (∀ (s : VSState) (j : String) (jd : VSJobData),
      (s.disk.map Prod.fst).Nodup → (j, jd) ∈ s.disk →
      lookupA (reloadVS s).mem j = some jd)
    ∧ (∀ (s : VSState) (j : String) (cs : List Chunk) (c0 : Chunk)
        (rest : List Chunk) (e0 : List ℚ),
      cs = c0 :: rest → c0.embedding = some e0 → embValid e0.length cs = true →
      lookupA s.mem j = none →
      addDocumentsVS s j cs =
        (⟨upsertA s.mem j (vsInsert ⟨e0.length, [], [], []⟩ cs),
          upsertA s.disk j (vsInsert ⟨e0.length, [], [], []⟩ cs)⟩,
         .ok cs.length)) := by
  refine ⟨?_, ?_, ?_⟩
  · intro s j q k jd hm hm2
    exact searchVS_reload_hit s j q k jd hm hm2
  · intro s j jd hnodup hmem
    exact lookupA_foldl_upsertA_mem Prod.fst Prod.snd s.disk s.mem (j, jd) hmem hnodup
  · intro s j cs c0 rest e0 hcs hemb hval hm
    exact addDocumentsVS_fresh s j cs c0 rest e0 hcs hemb hval hm

/-- Counterexample for C6 as stated: for a job whose complete triple
exists on disk but is not resident, add_documents succeeds with a
fresh index built from the new chunks only; the persisted chunk is
absent from the resulting resident and persisted state. -/
theorem add_documents_ignores_persisted_index :
    lookupA sDiskC6.mem "j" = none
    ∧ lookupA sDiskC6.disk "j" = some jdOld
    ∧ addDocumentsVS sDiskC6 "j" [cNewC6] =
        (⟨[("j", ⟨1, [[7]], [("new", cNewC6)], ["new"]⟩)],
          [("j", ⟨1, [[7]], [("new", cNewC6)], ["new"]⟩)]⟩, .ok 1)
    ∧ "old" ∉ (⟨1, [[7]], [("new", cNewC6)], ["new"]⟩ : VSJobData).idMap
    ∧ "old" ∈ jdOld.idMap := by
  refine ⟨rfl, rfl, rfl, by decide, by decide⟩

/-- Witness for C6 at the concrete disk-only state. -/
theorem search_reloads_add_documents_does_not_witness :
    searchVS sDiskC6 "j" [(0:ℚ)] 1 = (reloadVS sDiskC6, searchResident jdOld [0] 1)
    ∧ lookupA (reloadVS sDiskC6).mem "j" = some jdOld
    ∧ addDocumentsVS sDiskC6 "j" [cNewC6] =
        (⟨upsertA sDiskC6.mem "j" (vsInsert ⟨1, [], [], []⟩ [cNewC6]),
          upsertA sDiskC6.disk "j" (vsInsert ⟨1, [], [], []⟩ [cNewC6])⟩, .ok 1) := by
  refine ⟨search_reloads_add_documents_does_not.1 sDiskC6 "j" [0] 1 jdOld rfl rfl,
    search_reloads_add_documents_does_not.2.1 sDiskC6 "j" jdOld (by simp [sDiskC6])
      (by simp [sDiskC6]),
    search_reloads_add_documents_does_not.2.2 sDiskC6 "j" [cNewC6] cNewC6 [] [7]
      rfl rfl rfl rfl⟩

/-! ### Claim C2 -/

theorem joinSp_length (s : List Char) (rest : List (List Char)) :
    (joinSp (s :: rest)).length + 1 =
      ((s :: rest).map (fun x => x.length + 1)).sum := by
  induction rest generalizing s with
  | nil => simp [joinSp]
  | cons t rest ih =>
    have h1 : joinSp (s :: t :: rest) = s ++ ' ' :: joinSp (t :: rest) := rfl
    have h2 := ih t
    simp only [h1, List.length_append, List.length_cons, List.map_cons,
      List.sum_cons] at *
    omega

theorem joinSp_append_length (cur : List (List Char)) (s : List Char)
    (hcur : cur ≠ []) :
    (joinSp (cur ++ [s])).length = (joinSp cur).length + 1 + s.length := by
  induction cur with
  | nil => exact absurd rfl hcur
  | cons a rest ih =>
    cases rest with
    | nil =>
      have h1 : joinSp ([a] ++ [s]) = a ++ ' ' :: s := rfl
      have h2 : joinSp [a] = a := rfl
      rw [h1, h2]
      simp only [List.length_append, List.length_cons]
      omega
    | cons b rest2 =>
      have h1 : joinSp ((a :: b :: rest2) ++ [s]) =
          a ++ ' ' :: joinSp ((b :: rest2) ++ [s]) := rfl
      have h2 : joinSp (a :: b :: rest2) = a ++ ' ' :: joinSp (b :: rest2) := rfl
      have h3 := ih (by simp)
      simp only [h1, h2, List.length_append, List.length_cons] at *
      omega

theorem overlapAux_spec (chunkOverlap : Nat) :
    ∀ (rev acc : List (List Char)) (accLen : Nat),
      accLen = (acc.map (fun s => s.length + 1)).sum → accLen ≤ chunkOverlap →
      (overlapAux chunkOverlap rev acc accLen).2 =
        ((overlapAux chunkOverlap rev acc accLen).1.map (fun s => s.length + 1)).sum
      ∧ (overlapAux chunkOverlap rev acc accLen).2 ≤ chunkOverlap := by
  intro rev
  induction rev with
  | nil =>
    intro acc accLen h1 h2
    exact ⟨h1, h2⟩
  | cons s rest ih =>
    intro acc accLen h1 h2
    unfold overlapAux
    by_cases hfit : accLen + s.length + 1 ≤ chunkOverlap
    · rw [if_pos hfit]
      refine ih (s :: acc) (accLen + s.length + 1) ?_ hfit
      simp only [List.map_cons, List.sum_cons]
      omega
    · rw [if_neg hfit]
      exact ⟨h1, h2⟩

theorem pyRFindChar_lt (c : Char) (l : List Char) (i : Nat)
    (h : pyRFindChar c l = some i) : i < l.length := by
  induction l generalizing i with
  | nil => simp [pyRFindChar] at h
  | cons a rest ih =>
    unfold pyRFindChar at h
    cases hr : pyRFindChar c rest with
    | some i0 =>
      rw [hr] at h
      simp only [Option.some.injEq] at h
      have := ih i0 hr
      simp only [List.length_cons]
      omega
    | none =>
      rw [hr] at h
      by_cases hac : a = c
      · rw [if_pos hac] at h
        simp only [Option.some.injEq] at h
        simp [← h]
      · rw [if_neg hac] at h
        simp at h

/-- When the force-split condition does not hold, the loop is the
identity for every fuel value. -/
theorem forceSplitLoop_no_split (chunkSize : Nat) (fuel : Nat)
    (chunks cur : List (List Char)) (curLen : Nat) (sentence : List Char)
    (h : ¬ (curLen > chunkSize ∧ cur.length = 1)) :
    forceSplitLoop chunkSize fuel chunks cur curLen sentence =
      ⟨chunks, cur, curLen⟩ := by
  cases fuel with
  | zero => rfl
  | succ fuel =>
    unfold forceSplitLoop
    rw [if_neg h]

/-- One step of the chunk_text for-loop preserves the invariant when
the incoming sentence is within chunkSize. -/
theorem processSentence_inv (chunkSize chunkOverlap : Nat)
    (hcs : 0 < chunkSize) (st : ChunkState) (sentence : List Char)
    (hs : sentence.length ≤ chunkSize) (h : ChunkInv chunkSize chunkOverlap st) :
    ChunkInv chunkSize chunkOverlap (processSentence chunkSize chunkOverlap st sentence) := by
  obtain ⟨chunks0, cur0, curLen0⟩ := st
  obtain ⟨hchunks, hjl_len, hjl_bound, hempty⟩ := h
  dsimp only at hchunks hjl_len hjl_bound hempty
  unfold processSentence
  dsimp only
  by_cases hfit : curLen0 + sentence.length + cur0.length ≤ chunkSize
  · rw [if_pos hfit]
    cases hcur : cur0 with
    | nil =>
      have hz : curLen0 = 0 := hempty hcur
      subst hcur
      refine ⟨hchunks, ?_, ?_, by simp⟩
      · simp only [List.nil_append, joinSp]
        omega
      · simp only [List.nil_append, joinSp]
        simp only [List.length_nil] at hfit
        omega
    | cons a rest =>
      rw [← hcur]
      have hne : cur0 ≠ [] := by rw [hcur]; simp
      have happ := joinSp_append_length cur0 sentence hne
      have hlen1 : cur0.length ≥ 1 := by rw [hcur]; simp
      refine ⟨hchunks, ?_, ?_, by simp⟩
      · dsimp only
        rw [happ]
        omega
      · dsimp only
        rw [happ]
        omega
  · rw [if_neg hfit]
    have hchunks1 : ∀ c ∈ (match cur0 with
        | [] => chunks0
        | _ :: _ => chunks0 ++ [pyStrip (joinSp cur0)]),
        c.length ≤ chunkSize + chunkOverlap := by
      cases hcur : cur0 with
      | nil => exact hchunks
      | cons a rest =>
        intro c hc
        rcases List.mem_append.mp hc with h1 | h1
        · exact hchunks c h1
        · simp only [List.mem_singleton] at h1
          subst h1
          rw [← hcur] at *
          calc (pyStrip (joinSp cur0)).length
              ≤ (joinSp cur0).length := length_pyStrip_le _
            _ ≤ chunkSize + chunkOverlap := hjl_bound
    obtain ⟨hovsum, hovle⟩ := overlapAux_spec chunkOverlap cur0.reverse [] 0
      (by simp) (Nat.zero_le _)
    set ovp := overlapAux chunkOverlap cur0.reverse [] 0 with hovp
    set len1 := ((ovp.1 ++ [sentence]).map (fun s => s.length + 1)).sum with hlen1
    have hlen1sum : len1 = ovp.2 + sentence.length + 1 := by
      rw [hlen1, List.map_append, List.sum_append, ← hovsum]
      simp only [List.map_cons, List.map_nil, List.sum_cons, List.sum_nil]
      omega
    have hjl1 : (joinSp (ovp.1 ++ [sentence])).length + 1 = len1 := by
      cases hov1 : ovp.1 with
      | nil =>
        have hz : ovp.2 = 0 := by
          rw [hovsum, hov1]
          simp
        simp only [List.nil_append, joinSp]
        omega
      | cons a rest =>
        have hne : (a :: rest : List (List Char)) ≠ [] := by simp
        have happ := joinSp_append_length (a :: rest) sentence hne
        have hjs := joinSp_length a rest
        have hsum : ((a :: rest).map (fun s => s.length + 1)).sum = ovp.2 := by
          rw [hovsum, hov1]
        simp only [List.cons_append] at happ ⊢
        rw [happ]
        omega
    by_cases hsplit : len1 > chunkSize ∧ (ovp.1 ++ [sentence]).length = 1
    · have hov1nil : ovp.1 = [] := by
        rcases hsplit with ⟨_, hl⟩
        simp only [List.length_append, List.length_singleton] at hl
        have : ovp.1.length = 0 := by omega
        exact List.length_eq_zero.mp this
      have hov2z : ovp.2 = 0 := by
        rw [hovsum, hov1nil]
        simp
      have hslen : sentence.length = chunkSize := by
        rcases hsplit with ⟨hgt, _⟩
        rw [hlen1sum, hov2z] at hgt
        omega
      unfold forceSplitLoop
      rw [if_pos hsplit]
      set sp := (match pyRFindChar ' ' (sentence.take chunkSize) with
        | none => chunkSize
        | some i => if 5 * i < 4 * chunkSize then chunkSize else i) with hsp
      have hsple : sp ≤ chunkSize := by
        rw [hsp]
        cases hrf : pyRFindChar ' ' (sentence.take chunkSize) with
        | none => simp
        | some i =>
          have := pyRFindChar_lt ' ' (sentence.take chunkSize) i hrf
          rw [List.length_take] at this
          by_cases h5 : 5 * i < 4 * chunkSize
          · simp [h5]
          · simp only [if_neg h5]
            omega
      have hpiece : (pyStrip (sentence.take sp)).length ≤ chunkSize + chunkOverlap := by
        calc (pyStrip (sentence.take sp)).length
            ≤ (sentence.take sp).length := length_pyStrip_le _
          _ = min sp sentence.length := List.length_take _ _
          _ ≤ chunkSize := by omega
          _ ≤ chunkSize + chunkOverlap := Nat.le_add_right _ _
      have hrest : (pyStrip (sentence.drop sp)).length ≤ chunkSize := by
        calc (pyStrip (sentence.drop sp)).length
            ≤ (sentence.drop sp).length := length_pyStrip_le _
          _ = sentence.length - sp := List.length_drop _ _
          _ ≤ chunkSize := by omega
      rw [forceSplitLoop_no_split chunkSize sentence.length _ _ _ _
        (by
          intro hcon
          rcases hcon with ⟨hgt, _⟩
          omega)]
      refine ⟨?_, ?_, ?_, by simp⟩
      · intro c hc
        rcases List.mem_append.mp hc with h1 | h1
        · exact hchunks1 c h1
        · simp only [List.mem_singleton] at h1
          subst h1
          exact hpiece
      · dsimp only
        simp [joinSp]
      · dsimp only
        simp only [joinSp]
        omega
    · rw [forceSplitLoop_no_split chunkSize (sentence.length + 1) _ _ _ _ hsplit]
      refine ⟨hchunks1, ?_, ?_, by simp⟩
      · dsimp only
        omega
      · dsimp only
        have hje : (joinSp (ovp.1 ++ [sentence])).length = ovp.2 + sentence.length := by
          omega
        rw [hje]
        omega

/-- The whole for-loop preserves the invariant. -/
theorem foldl_processSentence_inv (chunkSize chunkOverlap : Nat)
    (hcs : 0 < chunkSize) :
    ∀ (sentences : List (List Char)) (st : ChunkState),
      (∀ s ∈ sentences, s.length ≤ chunkSize) →
      ChunkInv chunkSize chunkOverlap st →
      ChunkInv chunkSize chunkOverlap
        (sentences.foldl (processSentence chunkSize chunkOverlap) st) := by
  intro sentences
  induction sentences with
  | nil =>
    intro st _ h
    exact h
  | cons s rest ih =>
    intro st hall h
    simp only [List.foldl_cons]
    exact ih (processSentence chunkSize chunkOverlap st s)
      (fun s1 hs1 => hall s1 (List.mem_cons_of_mem _ hs1))
      (processSentence_inv chunkSize chunkOverlap hcs st s
        (hall s (List.mem_cons_self _ _)) h)

/-- Claim C2 (amended: the bound holds whenever no sentence of the
text exceeds chunkSize; a longer sentence is force-split only when it
starts a chunk with no carried overlap, and otherwise the chunk can
exceed the bound, see the counterexample): for every text whose
sentences are each at most chunkSize long, every chunk returned by
chunk_text has length at most chunkSize + chunkOverlap. -/
theorem chunk_text_length_bound (text : List Char) (chunkSize chunkOverlap : Nat)
    (hcs : 0 < chunkSize)
    (hsent : ∀ s ∈ splitSentences text, s.length ≤ chunkSize) :
    ∀ c ∈ chunk_text text chunkSize chunkOverlap,
      c.length ≤ chunkSize + chunkOverlap := by
  intro c hc
  unfold chunk_text at hc
  by_cases htext : text = []
  · rw [if_pos htext] at hc
    simp at hc
  · rw [if_neg htext] at hc
    have hinv := foldl_processSentence_inv chunkSize chunkOverlap hcs
      (splitSentences text) ⟨[], [], 0⟩ hsent
      ⟨by intro c1 hc1; simp at hc1, by simp [joinSp], by simp [joinSp],
        fun _ => rfl⟩
    set st := (splitSentences text).foldl
      (processSentence chunkSize chunkOverlap) ⟨[], [], 0⟩ with hst
    have hc2 := List.mem_of_mem_filter hc
    cases hcur : st.cur with
    | nil =>
      rw [hcur] at hc2
      exact hinv.1 c hc2
    | cons a rest =>
      rw [hcur] at hc2
      rcases List.mem_append.mp hc2 with h1 | h1
      · exact hinv.1 c h1
      · simp only [List.mem_singleton] at h1
        subst h1
        have hb := hinv.2.2.1
        rw [hcur] at hb
        calc (pyStrip (joinSp (a :: rest))).length
            ≤ (joinSp (a :: rest)).length := length_pyStrip_le _
          _ ≤ chunkSize + chunkOverlap := hb

/-- Counterexample for C2 as stated: with chunkSize 10 and
chunkOverlap 5, the 30-character second sentence of textC2 is packed
after the carried-over overlap sentence without being force-split
(the split loop requires the current chunk to be a single sentence),
yielding a 34-character chunk, beyond chunkSize + chunkOverlap = 15. -/
theorem chunk_text_exceeds_claimed_bound :
    0 < 10
    ∧ ((chunk_text textC2 10 5).any fun c => decide (10 + 5 < c.length)) = true
    ∧ (chunk_text textC2 10 5).length = 2 := by
  refine ⟨by decide, by decide, by decide⟩

/-- Witness for C2 on a text whose sentences are within the chunk
size. -/
theorem chunk_text_length_bound_witness :
    (0 < 5 ∧ ∀ s ∈ splitSentences ("Hi. Yo.".toList), s.length ≤ 5)
    ∧ ∀ c ∈ chunk_text ("Hi. Yo.".toList) 5 3, c.length ≤ 5 + 3 :=
  ⟨⟨by decide, by decide⟩,
   chunk_text_length_bound ("Hi. Yo.".toList) 5 3 (by decide) (by decide)⟩
